import Mathlib

/-!
Verification of the pyviewer repository: a shallow embedding of the
single-image shared-memory viewer (`pyviewer/single_image_viewer.py`),
the texture-cache upload path (`pyviewer/gl_viewer.py`, class `_texture`)
and the window-settings ini file round trip (`pyviewer/gl_viewer.py`,
class `viewer`).

Modelling conventions:
- numpy uint8 sample values are natural numbers (the canonical 0-255 range);
- a numpy array is its shape together with its row-major flattened data list;
- Python `assert` statements are modelled by returning an error message next
  to the state as it was when the assert fired (no mutation precedes any
  assert in the modelled paths, and none follows a failed one);
- multiprocessing shared values are fields of one explicit state record that
  every operation threads through.
-/

set_option maxHeartbeats 1000000

namespace PyViewer

/-- A rank-3 numpy array: dimensions `d0, d1, d2` and row-major flattened
sample data (index `(i, j, k)` lives at flat position `i*d1*d2 + j*d2 + k`). -/
structure Image where
  d0 : Nat
  d1 : Nat
  d2 : Nat
  data : List Nat
deriving DecidableEq, Repr

/-- `np.prod(img.shape)`: total number of samples. -/
def Image.size (img : Image) : Nat := img.d0 * img.d1 * img.d2

/-- Well-formedness: the flattened data has exactly `d0*d1*d2` samples. -/
def Image.wf (img : Image) : Prop := img.data.length = img.size

instance (img : Image) : Decidable img.wf := by
  unfold Image.wf; infer_instance

/-- Modelled from the spec: `normalize_image_data` lives in the module
`pyviewer.utils`, whose source file is not included in the repository
snapshot.  Spec section 4.2: `push` "normalizes sample values into a
canonical 0-255 (or 0-1 float) range by a fixed, documented rule (values
already in range pass through; values detected as outside assumed range are
rescaled)".  Samples are modelled as naturals in the canonical uint8 range:
data already within 0-255 passes through unchanged, out-of-range data is
rescaled so that the maximum sample maps to 255. -/
def normalize_image_data (xs : List Nat) : List Nat :=
  if xs.all (fun v => v ≤ 255) then xs
  else xs.map (fun v => v * 255 / xs.foldr max 0)

/-- `np.prod(self.max_size)` with `max_size = (2*3840, 2*2160, 3)`: the
fixed sample capacity of the shared buffer. -/
def capacity : Nat := (2 * 3840) * (2 * 2160) * 3

/-- The shared image slot: `shared_buffer` (fixed capacity, subset written),
the `latest_shape` record `{h, w, c}` and the `has_new_img` flag.  All are
updated together under the shared buffer's lock. -/
structure Slot where
  buffer : List Nat
  shapeH : Nat
  shapeW : Nat
  shapeC : Nat
  hasNewImg : Bool
deriving DecidableEq, Repr

/-- The full shared state of a `SingleImageViewer` instance: the slot plus
the scalar flag cells and the producer-side process handle.
`processAlive` models `self.ui_process.is_alive()`; `processGeneration`
counts how many viewer processes have been spawned, so that spawning a
fresh process is observable in the model. -/
structure SIV where
  slot : Slot
  paused : Bool
  shouldQuit : Bool
  hidden : Bool
  started : Bool
  processAlive : Bool
  processGeneration : Nat
deriving DecidableEq, Repr

/-- `np.transpose(img_chw, (1, 2, 0))`: planar `(c, h, w)` data rearranged
to interleaved `(h, w, c)`.  Out-of-range reads (impossible for well-formed
input) default to 0. -/
def chw_to_hwc (img : Image) : Image :=
  { d0 := img.d1
    d1 := img.d2
    d2 := img.d0
    data := (List.range img.d1).flatMap (fun i =>
      (List.range img.d2).flatMap (fun j =>
        (List.range img.d0).map (fun ch =>
          img.data.getD (ch * (img.d1 * img.d2) + i * img.d2 + j) 0))) }

/-- `SingleImageViewer.draw` (the producer-facing `push`): returns silently
when paused (unless `ignore_pause`) or when the viewer process is dead;
otherwise validates that exactly one layout is supplied, converts planar to
interleaved, checks the capacity bound, normalizes the samples and writes
buffer + shape + flag under the lock.  The (PyTorch-availability) type
asserts of the source are vacuous for numpy-modelled inputs and are not
represented. -/
def SIV.draw (st : SIV) (img_hwc img_chw : Option Image) (ignore_pause : Bool) :
    SIV × Option String :=
  if (st.paused && !ignore_pause) || !st.processAlive then (st, none)
  else if img_hwc.isNone && img_chw.isNone then
    (st, some "Must provide img_hwc or img_chw")
  else if img_hwc.isSome && img_chw.isSome then
    (st, some "Cannot provide both img_hwc and img_chw")
  else
    let img := match img_chw with
      | some planar => chw_to_hwc planar
      | none => img_hwc.getD ⟨0, 0, 0, []⟩
    let sz := img.size
    if capacity < sz then (st, some "Image too large, max size (7680, 4320, 3)")
    else
      let flat := normalize_image_data img.data
      ({ st with slot :=
          { buffer := flat.take sz ++ st.slot.buffer.drop sz
            shapeH := img.d0
            shapeW := img.d1
            shapeC := img.d2
            hasNewImg := true } }, none)

/-- One polling step of `SingleImageViewer.compute` (the slot's
`read_if_new`): if `has_new_img` is set, copy out `np.prod(shape)` samples
bounded by the current shape, clear the flag and return the copy;
otherwise leave the state untouched and report no update (`none`). -/
def SIV.read_if_new (st : SIV) : SIV × Option Image :=
  if st.slot.hasNewImg then
    ({ st with slot := { st.slot with hasNewImg := false } },
     some ⟨st.slot.shapeH, st.slot.shapeW, st.slot.shapeC,
           st.slot.buffer.take (st.slot.shapeH * st.slot.shapeW * st.slot.shapeC)⟩)
  else (st, none)

/-- `SingleImageViewer._start`: reset the `started` flag and spawn a fresh
viewer process. -/
def SIV._start (st : SIV) : SIV :=
  { st with started := false, processAlive := true,
            processGeneration := st.processGeneration + 1 }

/-- `SingleImageViewer.restart`: join the process if it is alive, then
`_start` a fresh one.  Raises nothing; the error slot is always `none`. -/
def SIV.restart (st : SIV) : SIV × Option String :=
  (SIV._start (if st.processAlive then { st with processAlive := false } else st), none)

/-- `SingleImageViewer.close`: set `should_quit` and join the process. -/
def SIV.close (st : SIV) : SIV × Option String :=
  ({ st with shouldQuit := true, processAlive := false }, none)

/-- `SingleImageViewer.hide`: set the shared visibility flag. -/
def SIV.hide (st : SIV) : SIV × Option String :=
  ({ st with hidden := true }, none)

/-- `SingleImageViewer.show` (without the optional startup wait): clear the
shared visibility flag. -/
def SIV.show' (st : SIV) : SIV × Option String :=
  ({ st with hidden := false }, none)

/-- A sequence of producer pushes of interleaved images with no intervening
read. -/
def SIV.pushSeq (st : SIV) (imgs : List Image) : SIV :=
  imgs.foldl (fun s img => (SIV.draw s (some img) none false).1) st

/-- A concrete slot holding no image. -/
def emptySlot : Slot := ⟨[], 0, 0, 0, false⟩

/-- A concrete viewer state whose process has exited. -/
def deadState : SIV :=
  { slot := emptySlot, paused := false, shouldQuit := false, hidden := false,
    started := false, processAlive := false, processGeneration := 1 }

/-- A concrete live, unpaused viewer state. -/
def liveState : SIV :=
  { slot := emptySlot, paused := false, shouldQuit := false, hidden := false,
    started := true, processAlive := true, processGeneration := 1 }

/-- A concrete live, paused viewer state. -/
def pausedState : SIV := { liveState with paused := true }

/-- A concrete live state whose slot carries an unread image. -/
def fullState : SIV :=
  { liveState with slot := ⟨[5, 6, 7, 8], 1, 1, 3, true⟩ }

/-- A concrete small interleaved image. -/
def imgA : Image := ⟨1, 1, 3, [1, 2, 3]⟩

/-- A second concrete interleaved image, with a different shape. -/
def imgB : Image := ⟨1, 2, 3, [9, 8, 7, 250, 5, 4]⟩

/-- A concrete image whose sample count exceeds the shared-buffer capacity. -/
def bigImg : Image := ⟨7680, 4320, 4, []⟩

/-- A concrete planar (channel-first) image of shape (3, 64, 128). -/
def planarImg : Image := ⟨3, 64, 128, List.replicate 24576 7⟩

/-- A numpy array of arbitrary rank for the texture upload path: its shape
list and row-major flattened data. -/
structure NpImage where
  dims : List Nat
  data : List Nat
deriving DecidableEq, Repr

/-- One `_texture` of `gl_viewer.py`: `shape` is the texture's last-known
shape list (`[0, 0]` right after `glGenTextures`).  GPU storage is modelled
observationally: `allocH`/`allocW` are the dimensions passed to the last
`glTexImage2D` reallocation, `reallocCount` counts those reallocations, and
`stored` is the pixel data held after the last upload (`glTexImage2D` full
upload or `glTexSubImage2D` partial overwrite). -/
structure Texture where
  shape : List Nat
  allocH : Nat
  allocW : Nat
  reallocCount : Nat
  stored : List Nat
deriving DecidableEq, Repr

/-- `_texture.__init__`: fresh texture with `shape = [0, 0]` and no storage. -/
def Texture.init : Texture := ⟨[0, 0], 0, 0, 0, []⟩

/-- `np.expand_dims(image, -1)` applied when the image has rank 2 (shape
effect only; the flattened data is unchanged). -/
def np_atleast3_dims (dims : List Nat) : List Nat :=
  if dims.length = 2 then dims ++ [1] else dims

/-- Shape after `upload_np`'s preprocessing: a single channel is repeated to
three (`np.repeat(image, 3, axis=-1)`). -/
def np_rgb_dims (dims : List Nat) : List Nat :=
  let d := np_atleast3_dims dims
  if d.getD 2 0 = 1 then d.take 2 ++ [3] else d

/-- Data after `upload_np`'s preprocessing: repeating a single channel
triples every sample along the last axis. -/
def np_rgb_data (dims : List Nat) (data : List Nat) : List Nat :=
  if (np_atleast3_dims dims).getD 2 0 = 1 then data.flatMap (fun v => [v, v, v])
  else data

/-- `_texture.upload_np`: normalize to uint8, expand a rank-2 image to rank
3, repeat a single channel to three; then if height or width differ from the
texture's last-known shape, reallocate storage sized to the new dimensions
(`glTexImage2D`) and remember the new shape, else overwrite the existing
storage only (`glTexSubImage2D`). -/
def Texture.upload_np (t : Texture) (img : NpImage) : Texture :=
  let data2 := np_rgb_data img.dims (normalize_image_data img.data)
  let shape := np_rgb_dims img.dims
  if shape.getD 0 0 ≠ t.shape.getD 0 0 ∨ shape.getD 1 0 ≠ t.shape.getD 1 0 then
    { shape := shape
      allocH := shape.getD 0 0
      allocW := shape.getD 1 0
      reallocCount := t.reallocCount + 1
      stored := data2 }
  else
    { t with stored := data2 }

/-- A concrete 2x2x3 numpy image. -/
def npImgA : NpImage := ⟨[2, 2, 3], [1, 2, 3, 4, 5, 6, 7, 8, 9, 10, 11, 12]⟩

/-- A second concrete 2x2x3 numpy image with different data. -/
def npImgB : NpImage := ⟨[2, 2, 3], [12, 11, 10, 9, 8, 7, 6, 5, 4, 3, 2, 1]⟩

/-- A concrete 4x2x3 numpy image (different height). -/
def npImgC : NpImage := ⟨[4, 2, 3], List.replicate 24 9⟩

/-! ### The settings (ini) file of `gl_viewer.viewer`

The file is line-oriented plain text; it is modelled as a `List String` of
lines without their trailing newline.  Numbers are written with Python's
`'{}'.format` (decimal notation) and read back with `int()` / `float()`;
both directions are modelled character by character below.  The model's
number grammar covers what the writer emits (an optional minus sign and
decimal digits, with a mandatory `digits.digits` form for floats); Python's
parsers additionally accept exotic forms (surrounding whitespace, `+`
signs, exponents, `inf`) that the writer never produces and that no claim
exercises.  The Python float value is modelled as an exact rational; the
printer emits its exact finite decimal expansion (Python prints the
shortest decimal that parses back to the same value — both printers
round-trip exactly). -/

/-- ASCII decimal digit test. -/
def isDigitCh (c : Char) : Bool := 48 ≤ c.toNat && c.toNat ≤ 57

/-- The digit character for a value below ten. -/
def digitCh (d : Nat) : Char := Char.ofNat (48 + d)

/-- Whitespace as stripped by `str.rstrip()` / split by `str.split()`. -/
def isSpaceCh (c : Char) : Bool := c = ' ' || c = '\t' || c = '\n' || c = '\r'

/-- Decimal digits of a natural number, least significant first. -/
def natDigitsRev : Nat → List Nat
  | 0 => []
  | n + 1 => (n + 1) % 10 :: natDigitsRev ((n + 1) / 10)
decreasing_by exact Nat.div_lt_self (Nat.succ_pos n) (by norm_num)

/-- Decimal notation of a natural number (Python `'{}'.format(n)`). -/
def charsOfNat (n : Nat) : List Char :=
  if n = 0 then ['0'] else ((natDigitsRev n).reverse.map digitCh)

/-- Decimal notation of an integer (Python `'{}'.format(i)`). -/
def charsOfInt (i : Int) : List Char :=
  if i < 0 then '-' :: charsOfNat i.natAbs else charsOfNat i.natAbs

/-- Parse an unsigned decimal numeral (the digits-only core of `int()`). -/
def parseNatCh (cs : List Char) : Option Nat :=
  if cs ≠ [] ∧ cs.all isDigitCh then
    some (cs.foldl (fun a c => a * 10 + (c.toNat - 48)) 0)
  else none

/-- Parse a signed decimal numeral (Python `int()` on writer output). -/
def parseIntCh (cs : List Char) : Option Int :=
  if cs.getD 0 ' ' = '-' then (parseNatCh (cs.drop 1)).map (fun n => -(n : Int))
  else (parseNatCh cs).map (fun n => (n : Int))

/-- `str.split()` (no separator): split on whitespace runs, dropping empty
pieces. -/
def splitWSAux : List Char → List Char → List (List Char)
  | [], acc => if acc.isEmpty then [] else [acc.reverse]
  | c :: cs, acc =>
    if isSpaceCh c then
      if acc.isEmpty then splitWSAux cs [] else acc.reverse :: splitWSAux cs []
    else splitWSAux cs (c :: acc)

/-- `str.split()` on a character list. -/
def splitWS (cs : List Char) : List (List Char) := splitWSAux cs []

/-- `str.rstrip()`: drop trailing whitespace. -/
def rstripCh (cs : List Char) : List Char := (cs.reverse.dropWhile isSpaceCh).reverse

/-- `str.split(sep)` for a one-character separator (empty pieces kept). -/
def splitChAux (sep : Char) : List Char → List Char → List (List Char)
  | [], acc => [acc.reverse]
  | c :: cs, acc =>
    if c = sep then acc.reverse :: splitChAux sep cs []
    else splitChAux sep cs (c :: acc)

/-- `str.split(sep)` on a character list. -/
def splitCh (sep : Char) (cs : List Char) : List (List Char) := splitChAux sep cs []

/-- Smallest exponent below 400 making `q * 10^k` integral (the decimal
expansion length of a finite-decimal rational; any Python float needs well
under 400 digits). -/
def decExp (q : ℚ) : Nat :=
  (((List.range 400).find? (fun k => (q * (10 : ℚ) ^ k).den = 1)).getD 0)

/-- Left-pad a numeral with zeros to width `k`. -/
def padZeros (cs : List Char) (k : Nat) : List Char :=
  List.replicate (k - cs.length) '0' ++ cs

/-- Decimal notation of a finite-decimal rational, always with a fractional
part (`1.0`, `0.25`, ...), as Python `'{}'.format` prints a float value. -/
def floatChars (q : ℚ) : List Char :=
  let k := max (decExp q) 1
  let n := (q * (10 : ℚ) ^ k).num.natAbs
  let sign : List Char := if q < 0 then ['-'] else []
  sign ++ charsOfNat (n / 10 ^ k) ++ '.' :: padZeros (charsOfNat (n % 10 ^ k)) k

/-- Python `float()` on the decimal forms the writer emits:
`digits[.digits]` with an optional leading minus sign. -/
def parseFloatCh (cs : List Char) : Option ℚ :=
  match splitCh '.' cs with
  | [a] => (parseIntCh a).map (fun i => (i : ℚ))
  | [a, b] => do
    let ip ← parseIntCh a
    let fp ← parseNatCh b
    pure (if a.getD 0 ' ' = '-' then (ip : ℚ) - (fp : ℚ) / (10 : ℚ) ^ b.length
          else (ip : ℚ) + (fp : ℚ) / (10 : ℚ) ^ b.length)
  | _ => none

/-- One live-editing scratch pad (`_editable`): its key and the two code
strings persisted with it. -/
structure Editable where
  name : String
  ui_code : String
  run_code : String
deriving DecidableEq, Repr

/-- The window settings persisted in the ini file, in file order: width and
height, window position (a list, as the reader accepts any number of
entries on that line), the maximized flag, the UI scale and the fullscreen
flag. -/
structure IniSettings where
  width : Int
  height : Int
  windowPos : List Int
  startMaximized : Int
  uiScale : ℚ
  fullscreen : Bool
deriving DecidableEq, Repr

/-- The fallback used when the ini file is missing or malformed:
1280x720 at position (50, 50), UI scale 1.0, not fullscreen (and not
maximized). -/
def defaultSettings : IniSettings := ⟨1280, 720, [50, 50], 0, 1, false⟩

/-- Pack a character list into a `String`. -/
def strOfChars (cs : List Char) : String := String.mk cs

/-- The lines written for one code string of an editable: the line count,
then the lines of `code.split('\n')`. -/
def writeCodeLines (code : String) : List String :=
  let ls := splitCh '\n' code.data
  strOfChars (charsOfNat ls.length) :: ls.map strOfChars

/-- The lines written for one editable: key line, then both code blocks. -/
def writeEditable (e : Editable) : List String :=
  e.name :: (writeCodeLines e.ui_code ++ writeCodeLines e.run_code)

/-- The ini file written on clean shutdown (`viewer.start`, shutdown path):
the five settings lines in fixed order, then the editables. -/
def writeIni (s : IniSettings) (eds : List Editable) : List String :=
  [ strOfChars (charsOfInt s.width ++ ' ' :: charsOfInt s.height)
  , strOfChars (charsOfInt (s.windowPos.getD 0 0) ++ ' ' :: charsOfInt (s.windowPos.getD 1 0))
  , strOfChars (charsOfInt s.startMaximized)
  , strOfChars (floatChars s.uiScale)
  , strOfChars (charsOfInt (if s.fullscreen then 1 else 0)) ]
  ++ eds.flatMap writeEditable

/-- `file.readline()` with the trailing newline already removed: returns
the empty string at end of file. -/
def readLine (lines : List String) (idx : Nat) : List Char :=
  ((lines[idx]?).getD "").data

/-- Reading one code block of an editable: a line count `n`, then
`'\n'.join` of the next `max n 0` lines (Python `range` of a negative count
is empty).  Returns the joined code and the next line index. -/
def readCodeBlock (lines : List String) (idx : Nat) : Option (String × Nat) := do
  let n ← parseIntCh (rstripCh (readLine lines idx))
  let k := n.toNat
  let block := (List.range k).map (fun j => strOfChars (rstripCh (readLine lines (idx + 1 + j))))
  pure (String.intercalate "\n" block, idx + 1 + k)

/-- The editable-reading loop of `viewer.__init__`: read keys until an
empty line (end of file), two code blocks per key.  Fuelled recursion; the
fuel is an upper bound on the number of iterations, and exhausting it is a
parse failure. -/
def parseEditablesAux : Nat → List String → Nat → Option (List Editable)
  | 0, _, _ => none
  | fuel + 1, lines, idx =>
    let key := rstripCh (readLine lines idx)
    if key.length = 0 then some []
    else do
      let (ui, idx1) ← readCodeBlock lines (idx + 1)
      let (run, idx2) ← readCodeBlock lines idx1
      let rest ← parseEditablesAux fuel lines idx2
      pure (⟨strOfChars key, ui, run⟩ :: rest)

/-- The `try` body of `viewer.__init__`: parse the five settings lines
(width/height by destructuring exactly two integers, the position as a list
of integers, then maximized, scale and fullscreen), then the editables.
Any failure models the Python exception. -/
def parseIniLines (lines : List String) : Option (IniSettings × List Editable) := do
  let wh ← (splitWS (readLine lines 0)).mapM parseIntCh
  let (w, h) ← match wh with
    | [w, h] => some (w, h)
    | _ => none
  let pos ← (splitWS (readLine lines 1)).mapM parseIntCh
  let maxi ← parseIntCh (rstripCh (readLine lines 2))
  let scale ← parseFloatCh (rstripCh (readLine lines 3))
  let fsInt ← parseIntCh (rstripCh (readLine lines 4))
  let eds ← parseEditablesAux (lines.length + 1) lines 5
  pure (⟨w, h, pos, maxi, scale, fsInt != 0⟩, eds)

/-- The startup read path: a missing file (`none`) or a file whose parse
raises falls back to the fixed defaults. -/
def readIniSettings (file : Option (List String)) : IniSettings :=
  match file with
  | none => defaultSettings
  | some lines =>
    match parseIniLines lines with
    | some r => r.1
    | none => defaultSettings

/-- A concrete settings record: a 1600x900 window at (-8, 120), maximized,
UI scale 1, fullscreen. -/
def iniSample : IniSettings := ⟨1600, 900, [-8, 120], 1, 1, true⟩

end PyViewer

namespace PyViewer

/-! ## Basic lemmas about the slot model -/

theorem normalize_length (xs : List Nat) :
    (normalize_image_data xs).length = xs.length := by
  unfold normalize_image_data
  split <;> simp

theorem normalize_of_in_range (xs : List Nat)
    (h : xs.all (fun v => v ≤ 255) = true) : normalize_image_data xs = xs := by
  unfold normalize_image_data
  simp [h]

/-- The single valid write: with the pause/liveness gate open and a
well-formed in-capacity interleaved image, `draw` writes the normalized
data, records the shape and raises the flag. -/
theorem draw_valid_write (st : SIV) (img : Image) (ip : Bool)
    (hgate : ((st.paused && !ip) || !st.processAlive) = false)
    (hw : img.wf) (hc : img.size ≤ capacity) :
    SIV.draw st (some img) none ip =
      ({ st with slot :=
          { buffer := normalize_image_data img.data ++ st.slot.buffer.drop img.size
            shapeH := img.d0
            shapeW := img.d1
            shapeC := img.d2
            hasNewImg := true } }, none) := by
  unfold SIV.draw
  rw [hgate]
  simp only [Bool.false_eq_true, if_false, Option.isNone_some, Option.isNone_none,
    Bool.and_true, Bool.and_false, Option.isSome_some, Option.isSome_none,
    Bool.false_eq_true, if_false, Option.getD_some]
  rw [if_neg (Nat.not_lt.mpr hc)]
  have hlen : (normalize_image_data img.data).length = img.size := by
    rw [normalize_length]; exact hw
  rw [← hlen, List.take_length, hlen]

/-- `pushSeq` unfolds one step at a time. -/
theorem pushSeq_cons (st : SIV) (img : Image) (rest : List Image) :
    SIV.pushSeq st (img :: rest) =
      SIV.pushSeq (SIV.draw st (some img) none false).1 rest := rfl

/-- Length of a flatMap over `List.range n` whose blocks all have length `L`. -/
theorem length_flatMap_const {α : Type} (f : Nat → List α) (n L : Nat)
    (h : ∀ k, k < n → (f k).length = L) :
    ((List.range n).flatMap f).length = n * L := by
  induction n with
  | zero => simp
  | succ m ih =>
    rw [List.range_succ, List.flatMap_append, List.length_append,
      ih (fun k hk => h k (Nat.lt_succ_of_lt hk))]
    simp only [List.flatMap_cons, List.flatMap_nil, List.append_nil]
    rw [h m (Nat.lt_succ_self m), Nat.succ_mul]

/-- Indexing into a flatMap over `List.range n` with constant block length:
position `i*L + r` lands at offset `r` of block `i`. -/
theorem getElem?_flatMap_const {α : Type} (f : Nat → List α) (n L i r : Nat)
    (h : ∀ k, k < n → (f k).length = L) (hi : i < n) (hr : r < L) :
    ((List.range n).flatMap f)[i * L + r]? = (f i)[r]? := by
  induction n with
  | zero => omega
  | succ m ih =>
    rw [List.range_succ, List.flatMap_append]
    have hlen : ((List.range m).flatMap f).length = m * L :=
      length_flatMap_const f m L (fun k hk => h k (Nat.lt_succ_of_lt hk))
    rcases Nat.lt_succ_iff_lt_or_eq.mp hi with hlt | heq
    · have hidx : i * L + r < m * L := by
        have h1 : i * L + r < (i + 1) * L := by
          rw [Nat.succ_mul]
          exact Nat.add_lt_add_left hr _
        exact Nat.lt_of_lt_of_le h1 (Nat.mul_le_mul_right L (Nat.succ_le_of_lt hlt))
      rw [List.getElem?_append_left (by rw [hlen]; exact hidx)]
      exact ih (fun k hk => h k (Nat.lt_succ_of_lt hk)) hlt
    · subst heq
      rw [List.getElem?_append_right (by rw [hlen]; exact Nat.le_add_right _ _)]
      rw [hlen, Nat.add_sub_cancel_left]
      simp only [List.flatMap_cons, List.flatMap_nil, List.append_nil]

/-- The flattened transposed data always has exactly `size` samples. -/
theorem chw_to_hwc_length (img : Image) :
    (chw_to_hwc img).data.length = (chw_to_hwc img).size := by
  unfold chw_to_hwc Image.size
  simp only
  rw [length_flatMap_const _ _ (img.d2 * img.d0)
    (fun k _ => length_flatMap_const _ _ img.d0 (fun j _ => by simp))]
  ring

/-- Element-level specification of `np.transpose(img_chw, (1, 2, 0))`:
interleaved element `(i, j, ch)` is planar element `(ch, i, j)`. -/
theorem chw_to_hwc_getElem (img : Image) (i j ch : Nat)
    (hi : i < img.d1) (hj : j < img.d2) (hch : ch < img.d0) :
    (chw_to_hwc img).data[i * (img.d2 * img.d0) + (j * img.d0 + ch)]? =
      some (img.data.getD (ch * (img.d1 * img.d2) + i * img.d2 + j) 0) := by
  unfold chw_to_hwc
  simp only
  rw [getElem?_flatMap_const _ img.d1 (img.d2 * img.d0) i (j * img.d0 + ch)
    (fun k _ => length_flatMap_const _ _ img.d0 (fun l _ => by simp)) hi
    (by
      have h1 : j * img.d0 + ch < (j + 1) * img.d0 := by
        rw [Nat.succ_mul]
        exact Nat.add_lt_add_left hch _
      exact Nat.lt_of_lt_of_le h1 (Nat.mul_le_mul_right img.d0 (Nat.succ_le_of_lt hj)))]
  rw [getElem?_flatMap_const _ img.d2 img.d0 j ch (fun l _ => by simp) hj hch]
  simp [List.getElem?_range hch]

/-- Sample values survive the transpose: transposed data stays in range. -/
theorem chw_to_hwc_in_range (img : Image)
    (h : img.data.all (fun v => v ≤ 255) = true) :
    (chw_to_hwc img).data.all (fun v => v ≤ 255) = true := by
  rw [List.all_eq_true] at h ⊢
  intro v hv
  unfold chw_to_hwc at hv
  simp only [List.mem_flatMap, List.mem_map, List.mem_range] at hv
  obtain ⟨i, -, j, -, ch, -, rfl⟩ := hv
  rw [List.getD_eq_getElem?_getD]
  cases hidx : img.data[ch * (img.d1 * img.d2) + i * img.d2 + j]? with
  | none => decide
  | some w => exact h w (List.getElem?_mem hidx)

/-- Valid planar write: with the gate open and the (transposed) image within
capacity, `draw` converts to interleaved and writes it. -/
theorem draw_valid_write_chw (st : SIV) (img : Image) (ip : Bool)
    (hgate : ((st.paused && !ip) || !st.processAlive) = false)
    (hc : (chw_to_hwc img).size ≤ capacity) :
    SIV.draw st none (some img) ip =
      ({ st with slot :=
          { buffer := normalize_image_data (chw_to_hwc img).data
                        ++ st.slot.buffer.drop (chw_to_hwc img).size
            shapeH := (chw_to_hwc img).d0
            shapeW := (chw_to_hwc img).d1
            shapeC := (chw_to_hwc img).d2
            hasNewImg := true } }, none) := by
  unfold SIV.draw
  rw [hgate]
  simp only [Bool.false_eq_true, if_false, Option.isNone_none, Option.isNone_some,
    Bool.true_and, Bool.and_false, Option.isSome_none, Option.isSome_some,
    Bool.false_and]
  rw [if_neg (Nat.not_lt.mpr hc)]
  have hlen : (normalize_image_data (chw_to_hwc img).data).length =
      (chw_to_hwc img).size := by
    rw [normalize_length]
    exact chw_to_hwc_length img
  rw [← hlen, List.take_length, hlen]

/-- C1: every in-capacity image pushed while the viewer is alive and
unpaused lands in the slot: after any nonempty sequence of such pushes with
no intervening read, `has_new_img` is set, the shape record is the shape of
the most recently pushed image, and the written part of the buffer is its
(normalized) data — earlier pushes are overwritten, never queued. -/
theorem push_last_value_wins (st : SIV) (imgs : List Image) (last : Image)
    (halive : st.processAlive = true) (hpaused : st.paused = false)
    (hval : ∀ img ∈ imgs, img.wf ∧ img.size ≤ capacity)
    (hlast : imgs.getLast? = some last) :
    (st.pushSeq imgs).slot.hasNewImg = true ∧
    (st.pushSeq imgs).slot.shapeH = last.d0 ∧
    (st.pushSeq imgs).slot.shapeW = last.d1 ∧
    (st.pushSeq imgs).slot.shapeC = last.d2 ∧
    (st.pushSeq imgs).slot.buffer.take last.size = normalize_image_data last.data := by
  induction imgs generalizing st with
  | nil => simp at hlast
  | cons img rest ih =>
    have hgate : ((st.paused && !false) || !st.processAlive) = false := by
      rw [hpaused, halive]; rfl
    have hv := hval img (List.mem_cons_self img rest)
    have hdraw := draw_valid_write st img false hgate hv.1 hv.2
    cases rest with
    | nil =>
      have hlast' : last = img := by
        simpa [List.getLast?] using hlast.symm
      subst hlast'
      rw [SIV.pushSeq, List.foldl_cons, List.foldl_nil, hdraw]
      refine ⟨rfl, rfl, rfl, rfl, ?_⟩
      have hlen : (normalize_image_data last.data).length = last.size := by
        rw [normalize_length]; exact hv.1
      exact List.take_left' hlen
    | cons r rs =>
      rw [pushSeq_cons]
      have hlast' : (r :: rs).getLast? = some last := by
        rwa [List.getLast?_cons_cons] at hlast
      refine ih (SIV.draw st (some img) none false).1 ?_ ?_
        (fun i hi => hval i (List.mem_cons_of_mem img hi)) hlast'
      · rw [hdraw]
        exact halive
      · rw [hdraw]
        exact hpaused

/-- Witness for C1 at a concrete two-push sequence. -/
theorem push_last_value_wins_witness :
    liveState.processAlive = true ∧ liveState.paused = false ∧
    (∀ img ∈ [imgA, imgB], img.wf ∧ img.size ≤ capacity) ∧
    [imgA, imgB].getLast? = some imgB ∧
    ((liveState.pushSeq [imgA, imgB]).slot.hasNewImg = true ∧
     (liveState.pushSeq [imgA, imgB]).slot.shapeH = imgB.d0 ∧
     (liveState.pushSeq [imgA, imgB]).slot.shapeW = imgB.d1 ∧
     (liveState.pushSeq [imgA, imgB]).slot.shapeC = imgB.d2 ∧
     (liveState.pushSeq [imgA, imgB]).slot.buffer.take imgB.size =
       normalize_image_data imgB.data) :=
  ⟨rfl, rfl, by decide, by decide,
   push_last_value_wins liveState [imgA, imgB] imgB rfl rfl (by decide) (by decide)⟩

/-- C2: an image whose sample count exceeds the capacity makes an alive,
unpaused `push` fail with a synchronous error and no mutation at all: the
state (buffer, shape record and `has_new_img` flag included) is returned
unchanged, whether the image is supplied interleaved or planar. -/
theorem push_over_capacity (st : SIV) (img : Image)
    (halive : st.processAlive = true) (hpaused : st.paused = false)
    (hbig : capacity < img.size) :
    SIV.draw st (some img) none false =
      (st, some "Image too large, max size (7680, 4320, 3)") ∧
    SIV.draw st none (some img) false =
      (st, some "Image too large, max size (7680, 4320, 3)") := by
  have hbig' : capacity < (chw_to_hwc img).size := by
    have : (chw_to_hwc img).size = img.size := by
      unfold chw_to_hwc Image.size
      ring
    rwa [this]
  constructor
  · unfold SIV.draw
    rw [hpaused, halive]
    simp only [Bool.not_false, Bool.and_true, Bool.false_and, Bool.not_true,
      Bool.or_false, Bool.false_or, Bool.false_eq_true, if_false,
      Option.isNone_some, Option.isNone_none, Bool.and_true, Bool.false_and,
      Option.isSome_some, Option.isSome_none, Bool.and_false, Option.getD_some]
    rw [if_pos hbig]
  · unfold SIV.draw
    rw [hpaused, halive]
    simp only [Bool.not_false, Bool.and_true, Bool.false_and, Bool.not_true,
      Bool.or_false, Bool.false_or, Bool.false_eq_true, if_false,
      Option.isNone_some, Option.isNone_none, Bool.true_and, Bool.and_false,
      Option.isSome_some, Option.isSome_none, Bool.false_and]
    rw [if_pos hbig']

/-- Witness for C2 at a concrete oversized image. -/
theorem push_over_capacity_witness :
    liveState.processAlive = true ∧ liveState.paused = false ∧
    capacity < bigImg.size ∧
    (SIV.draw liveState (some bigImg) none false =
      (liveState, some "Image too large, max size (7680, 4320, 3)") ∧
     SIV.draw liveState none (some bigImg) false =
      (liveState, some "Image too large, max size (7680, 4320, 3)")) :=
  ⟨rfl, rfl, by decide,
   push_over_capacity liveState bigImg rfl rfl (by decide)⟩

/-- C3: two consecutive `read_if_new` calls with no intervening push return
new data at most once.  The first call, when the flag is set, copies out the
buffer bounded by the current shape, clears the flag and leaves the buffer
itself untouched; the second call reports no update and changes nothing. -/
theorem read_if_new_twice (st : SIV) :
    (SIV.read_if_new (SIV.read_if_new st).1).2 = none ∧
    (SIV.read_if_new (SIV.read_if_new st).1).1 = (SIV.read_if_new st).1 ∧
    (st.slot.hasNewImg = true →
      (SIV.read_if_new st).2 =
        some ⟨st.slot.shapeH, st.slot.shapeW, st.slot.shapeC,
              st.slot.buffer.take (st.slot.shapeH * st.slot.shapeW * st.slot.shapeC)⟩ ∧
      (SIV.read_if_new st).1.slot.buffer = st.slot.buffer ∧
      (SIV.read_if_new st).1.slot.hasNewImg = false) ∧
    (st.slot.hasNewImg = false → SIV.read_if_new st = (st, none)) := by
  by_cases h : st.slot.hasNewImg = true
  · simp [SIV.read_if_new, h]
  · simp only [Bool.not_eq_true] at h
    simp [SIV.read_if_new, h]

/-- Witness for C3 at a concrete state carrying a new image. -/
theorem read_if_new_twice_witness :
    (SIV.read_if_new (SIV.read_if_new fullState).1).2 = none ∧
    (SIV.read_if_new (SIV.read_if_new fullState).1).1 = (SIV.read_if_new fullState).1 ∧
    (fullState.slot.hasNewImg = true →
      (SIV.read_if_new fullState).2 =
        some ⟨fullState.slot.shapeH, fullState.slot.shapeW, fullState.slot.shapeC,
              fullState.slot.buffer.take
                (fullState.slot.shapeH * fullState.slot.shapeW * fullState.slot.shapeC)⟩ ∧
      (SIV.read_if_new fullState).1.slot.buffer = fullState.slot.buffer ∧
      (SIV.read_if_new fullState).1.slot.hasNewImg = false) ∧
    (fullState.slot.hasNewImg = false → SIV.read_if_new fullState = (fullState, none)) :=
  read_if_new_twice fullState

/-- C4: while paused and without `ignore_pause`, `push` returns with the
state (buffer, shape and flags) fully unchanged; with `ignore_pause` set the
same paused state accepts an in-capacity image and performs the write. -/
theorem push_pause_semantics (st : SIV) (img : Image) (a b : Option Image)
    (hpaused : st.paused = true) (halive : st.processAlive = true)
    (hw : img.wf) (hc : img.size ≤ capacity) :
    SIV.draw st a b false = (st, none) ∧
    (SIV.draw st (some img) none true).2 = none ∧
    (SIV.draw st (some img) none true).1.slot.hasNewImg = true ∧
    (SIV.draw st (some img) none true).1.slot.shapeH = img.d0 ∧
    (SIV.draw st (some img) none true).1.slot.shapeW = img.d1 ∧
    (SIV.draw st (some img) none true).1.slot.shapeC = img.d2 ∧
    (SIV.draw st (some img) none true).1.slot.buffer.take img.size =
      normalize_image_data img.data := by
  have hgate : ((st.paused && !true) || !st.processAlive) = false := by
    rw [hpaused, halive]; rfl
  have hdraw := draw_valid_write st img true hgate hw hc
  refine ⟨?_, ?_, ?_, ?_, ?_, ?_, ?_⟩
  · unfold SIV.draw
    rw [hpaused]
    simp
  · rw [hdraw]
  · rw [hdraw]
  · rw [hdraw]
  · rw [hdraw]
  · rw [hdraw]
  · rw [hdraw]
    have hlen : (normalize_image_data img.data).length = img.size := by
      rw [normalize_length]; exact hw
    exact List.take_left' hlen

/-- Witness for C4 at a concrete paused state and image. -/
theorem push_pause_semantics_witness :
    pausedState.paused = true ∧ pausedState.processAlive = true ∧
    imgA.wf ∧ imgA.size ≤ capacity ∧
    (SIV.draw pausedState (some imgB) none false = (pausedState, none) ∧
     (SIV.draw pausedState (some imgA) none true).2 = none ∧
     (SIV.draw pausedState (some imgA) none true).1.slot.hasNewImg = true ∧
     (SIV.draw pausedState (some imgA) none true).1.slot.shapeH = imgA.d0 ∧
     (SIV.draw pausedState (some imgA) none true).1.slot.shapeW = imgA.d1 ∧
     (SIV.draw pausedState (some imgA) none true).1.slot.shapeC = imgA.d2 ∧
     (SIV.draw pausedState (some imgA) none true).1.slot.buffer.take imgA.size =
       normalize_image_data imgA.data) :=
  ⟨rfl, rfl, by decide, by decide,
   push_pause_semantics pausedState imgA (some imgB) none rfl rfl
     (by decide) (by decide)⟩

/-- C5: a planar (3, 64, 128) image pushed to an alive, unpaused viewer is
normalized to interleaved shape (64, 128, 3), and every interleaved buffer
element `[i, j, ch]` equals channel `ch` of the original planar image at
spatial position `(i, j)` — in particular element `[0, 0, ch]`. -/
theorem push_planar_normalized (st : SIV) (img : Image) (i j ch : Nat)
    (hd0 : img.d0 = 3) (hd1 : img.d1 = 64) (hd2 : img.d2 = 128)
    (hw : img.wf) (hrange : img.data.all (fun v => v ≤ 255) = true)
    (halive : st.processAlive = true) (hpaused : st.paused = false)
    (hi : i < 64) (hj : j < 128) (hch : ch < 3) :
    (SIV.draw st none (some img) false).1.slot.shapeH = 64 ∧
    (SIV.draw st none (some img) false).1.slot.shapeW = 128 ∧
    (SIV.draw st none (some img) false).1.slot.shapeC = 3 ∧
    (SIV.draw st none (some img) false).1.slot.buffer[i * 384 + j * 3 + ch]? =
      img.data[ch * 8192 + i * 128 + j]? := by
  have hgate : ((st.paused && !false) || !st.processAlive) = false := by
    rw [hpaused, halive]; rfl
  have hsize : (chw_to_hwc img).size = 24576 := by
    unfold chw_to_hwc Image.size
    simp only
    rw [hd0, hd1, hd2]
  have hc : (chw_to_hwc img).size ≤ capacity := by
    rw [hsize]
    decide
  have hdraw := draw_valid_write_chw st img false hgate hc
  have hnorm : normalize_image_data (chw_to_hwc img).data = (chw_to_hwc img).data :=
    normalize_of_in_range _ (chw_to_hwc_in_range img hrange)
  have hlen : (chw_to_hwc img).data.length = 24576 := by
    rw [chw_to_hwc_length, hsize]
  refine ⟨?_, ?_, ?_, ?_⟩
  · rw [hdraw]
    show (chw_to_hwc img).d0 = 64
    unfold chw_to_hwc
    rw [hd1]
  · rw [hdraw]
    show (chw_to_hwc img).d1 = 128
    unfold chw_to_hwc
    rw [hd2]
  · rw [hdraw]
    show (chw_to_hwc img).d2 = 3
    unfold chw_to_hwc
    rw [hd0]
  · rw [hdraw]
    show ((normalize_image_data (chw_to_hwc img).data
            ++ st.slot.buffer.drop (chw_to_hwc img).size))[i * 384 + j * 3 + ch]? = _
    rw [hnorm]
    rw [List.getElem?_append_left (by rw [hlen]; omega)]
    have hidx : i * 384 + j * 3 + ch = i * (img.d2 * img.d0) + (j * img.d0 + ch) := by
      rw [hd0, hd2]
      ring
    rw [hidx]
    rw [chw_to_hwc_getElem img i j ch (by omega) (by omega) (by omega)]
    have hlt : ch * 8192 + i * 128 + j < img.data.length := by
      rw [hw]
      unfold Image.size
      rw [hd0, hd1, hd2]
      omega
    rw [List.getElem?_eq_getElem hlt]
    have hidx2 : ch * (img.d1 * img.d2) + i * img.d2 + j = ch * 8192 + i * 128 + j := by
      rw [hd1, hd2]
    rw [hidx2, List.getD_eq_getElem?_getD, List.getElem?_eq_getElem hlt]
    rfl

/-- Witness for C5 at a concrete planar image and position (0, 0, 1). -/
theorem push_planar_normalized_witness :
    planarImg.d0 = 3 ∧ planarImg.d1 = 64 ∧ planarImg.d2 = 128 ∧
    planarImg.wf ∧ planarImg.data.all (fun v => v ≤ 255) = true ∧
    liveState.processAlive = true ∧ liveState.paused = false ∧
    ((SIV.draw liveState none (some planarImg) false).1.slot.shapeH = 64 ∧
     (SIV.draw liveState none (some planarImg) false).1.slot.shapeW = 128 ∧
     (SIV.draw liveState none (some planarImg) false).1.slot.shapeC = 3 ∧
     (SIV.draw liveState none (some planarImg) false).1.slot.buffer[0 * 384 + 0 * 3 + 1]? =
       planarImg.data[1 * 8192 + 0 * 128 + 0]?) :=
  ⟨rfl, rfl, rfl, by
     show (List.replicate 24576 7).length = 3 * 64 * 128
     rw [List.length_replicate],
   by
     rw [List.all_eq_true]
     intro v hv
     rcases List.mem_replicate.mp hv with ⟨-, rfl⟩
     decide,
   rfl, rfl,
   push_planar_normalized liveState planarImg 0 0 1 rfl rfl rfl
     (by
       show (List.replicate 24576 7).length = 3 * 64 * 128
       rw [List.length_replicate])
     (by
       rw [List.all_eq_true]
       intro v hv
       rcases List.mem_replicate.mp hv with ⟨-, rfl⟩
       decide)
     rfl rfl (by decide) (by decide) (by decide)⟩

/-- C7: with the viewer alive and unpaused, supplying neither or both image
layouts makes `push` report an error synchronously with no write at all. -/
theorem push_layout_validation (st : SIV) (a b : Image)
    (halive : st.processAlive = true) (hpaused : st.paused = false) :
    SIV.draw st none none false = (st, some "Must provide img_hwc or img_chw") ∧
    SIV.draw st (some a) (some b) false =
      (st, some "Cannot provide both img_hwc and img_chw") := by
  constructor
  · unfold SIV.draw
    rw [hpaused, halive]
    simp
  · unfold SIV.draw
    rw [hpaused, halive]
    simp

/-- Witness for C7 at concrete images. -/
theorem push_layout_validation_witness :
    liveState.processAlive = true ∧ liveState.paused = false ∧
    (SIV.draw liveState none none false =
      (liveState, some "Must provide img_hwc or img_chw") ∧
     SIV.draw liveState (some imgA) (some imgB) false =
      (liveState, some "Cannot provide both img_hwc and img_chw")) :=
  ⟨rfl, rfl, push_layout_validation liveState imgA imgB rfl rfl⟩

/-- C10: the pause/liveness gate runs before any argument validation.
Whenever the viewer is paused without `ignore_pause` or its process has
exited, `push` returns silently — whatever the arguments: both layouts,
neither layout, or an over-capacity image all go unreported. -/
theorem push_gate_precedence (st : SIV) (a b : Option Image) (ip : Bool)
    (hgate : (st.paused = true ∧ ip = false) ∨ st.processAlive = false) :
    SIV.draw st a b ip = (st, none) := by
  unfold SIV.draw
  rcases hgate with ⟨hp, hip⟩ | hd
  · rw [hp, hip]
    simp
  · rw [hd]
    simp

/-- Witness for C10: a paused viewer swallows even the
both-layouts-supplied error silently. -/
theorem push_gate_precedence_witness :
    ((pausedState.paused = true ∧ false = false) ∨ pausedState.processAlive = false) ∧
    SIV.draw pausedState (some bigImg) (some bigImg) false = (pausedState, none) :=
  ⟨Or.inl ⟨rfl, rfl⟩,
   push_gate_precedence pausedState (some bigImg) (some bigImg) false (Or.inl ⟨rfl, rfl⟩)⟩

/-- C8 counterexample: `restart` on a viewer whose process has exited is
not a no-op — it spawns a fresh process (the process state changes), so the
claim that every producer-facing call into a dead viewer leaves the slot
and process state unchanged is false. -/
theorem restart_dead_changes_state :
    ¬ ((SIV.restart deadState).1 = deadState) := by
  decide

/-- C8 (amended): a producer-facing call into a dead viewer never raises:
`push` is a genuine silent no-op, while `restart` spawns a fresh process
(resetting the `started` flag), `close` sets the quit flag and joins, and
`show`/`hide` update the shared visibility flag — all returning normally
with no error. -/
theorem dead_viewer_calls (st : SIV) (a b : Option Image) (ip : Bool)
    (hdead : st.processAlive = false) :
    SIV.draw st a b ip = (st, none) ∧
    SIV.restart st =
      ({ st with started := false, processAlive := true,
                 processGeneration := st.processGeneration + 1 }, none) ∧
    SIV.close st = ({ st with shouldQuit := true, processAlive := false }, none) ∧
    SIV.hide st = ({ st with hidden := true }, none) ∧
    SIV.show' st = ({ st with hidden := false }, none) := by
  refine ⟨push_gate_precedence st a b ip (Or.inr hdead), ?_, rfl, rfl, rfl⟩
  unfold SIV.restart SIV._start
  rw [hdead]
  simp

/-- `List.getD` of an append, inside the left part. -/
theorem getD_append_left {α : Type} (l₁ l₂ : List α) (n : Nat) (d : α)
    (h : n < l₁.length) : (l₁ ++ l₂).getD n d = l₁.getD n d := by
  rw [List.getD_eq_getElem?_getD, List.getD_eq_getElem?_getD,
    List.getElem?_append_left h]

/-- `List.getD` of a take, inside the kept prefix. -/
theorem getD_take_of_lt {α : Type} (l : List α) (m n : Nat) (d : α)
    (h : n < m) : (l.take m).getD n d = l.getD n d := by
  rw [List.getD_eq_getElem?_getD, List.getD_eq_getElem?_getD,
    List.getElem?_take_of_lt h]

/-- `upload_np`'s shape preprocessing never changes the first two
dimensions. -/
theorem np_rgb_dims_getD (dims : List Nat) :
    (np_rgb_dims dims).getD 0 0 = dims.getD 0 0 ∧
    (np_rgb_dims dims).getD 1 0 = dims.getD 1 0 := by
  unfold np_rgb_dims np_atleast3_dims
  by_cases h2 : dims.length = 2
  · rw [if_pos h2]
    have hget : (dims ++ [1]).getD 2 0 = 1 := by
      rw [List.getD_eq_getElem?_getD, List.getElem?_append_right (by omega)]
      rw [h2]
      rfl
    rw [if_pos hget, List.take_left' h2]
    constructor
    · rw [getD_append_left dims [3] 0 0 (by omega)]
    · rw [getD_append_left dims [3] 1 0 (by omega)]
  · rw [if_neg h2]
    by_cases h1 : dims.getD 2 0 = 1
    · have hlt : 2 < dims.length := by
        rw [List.getD_eq_getElem?_getD] at h1
        cases h : dims[2]? with
        | none => rw [h] at h1; simp at h1
        | some v => exact (List.getElem?_eq_some.mp h).1
      rw [if_pos h1]
      constructor
      · rw [getD_append_left _ _ _ _ (by simp [List.length_take]; omega),
          getD_take_of_lt _ _ _ _ (by omega)]
      · rw [getD_append_left _ _ _ _ (by simp [List.length_take]; omega),
          getD_take_of_lt _ _ _ _ (by omega)]
    · rw [if_neg h1]
      exact ⟨rfl, rfl⟩

/-- After any upload the texture's last-known first two dimensions are the
uploaded image's. -/
theorem upload_np_shape (t : Texture) (img : NpImage) :
    (t.upload_np img).shape.getD 0 0 = img.dims.getD 0 0 ∧
    (t.upload_np img).shape.getD 1 0 = img.dims.getD 1 0 := by
  obtain ⟨h0, h1⟩ := np_rgb_dims_getD img.dims
  simp only [Texture.upload_np]
  split
  · exact ⟨h0, h1⟩
  · next hcond =>
    push_neg at hcond
    exact ⟨by rw [← hcond.1, h0], by rw [← hcond.2, h1]⟩

/-- Matching-dimensions upload: no reallocation, only an overwrite. -/
theorem upload_np_count_of_eq (t : Texture) (img : NpImage)
    (h0 : img.dims.getD 0 0 = t.shape.getD 0 0)
    (h1 : img.dims.getD 1 0 = t.shape.getD 1 0) :
    (t.upload_np img).reallocCount = t.reallocCount := by
  obtain ⟨g0, g1⟩ := np_rgb_dims_getD img.dims
  simp only [Texture.upload_np]
  rw [if_neg]
  push_neg
  exact ⟨by rw [g0, h0], by rw [g1, h1]⟩

/-- Differing-dimensions upload: exactly one reallocation, sized to the new
dimensions. -/
theorem upload_np_count_of_ne (t : Texture) (img : NpImage)
    (h : ¬ (img.dims.getD 0 0 = t.shape.getD 0 0 ∧
            img.dims.getD 1 0 = t.shape.getD 1 0)) :
    (t.upload_np img).reallocCount = t.reallocCount + 1 ∧
    (t.upload_np img).allocH = img.dims.getD 0 0 ∧
    (t.upload_np img).allocW = img.dims.getD 1 0 := by
  obtain ⟨g0, g1⟩ := np_rgb_dims_getD img.dims
  simp only [Texture.upload_np]
  rw [if_pos]
  · exact ⟨rfl, g0, g1⟩
  · rcases not_and_or.mp h with h' | h'
    · exact Or.inl (by rw [g0]; exact h')
    · exact Or.inr (by rw [g1]; exact h')

/-- C6: uploading twice to the same texture with images of identical
height and width performs no reallocation on the second call; a second
upload whose dimensions differ from the texture's last-known dimensions
performs exactly one reallocation sized to the new dimensions. -/
theorem upload_np_realloc_policy (t : Texture) (a b : NpImage) :
    ((b.dims.getD 0 0 = a.dims.getD 0 0 ∧ b.dims.getD 1 0 = a.dims.getD 1 0) →
      ((t.upload_np a).upload_np b).reallocCount = (t.upload_np a).reallocCount) ∧
    (¬ (b.dims.getD 0 0 = a.dims.getD 0 0 ∧ b.dims.getD 1 0 = a.dims.getD 1 0) →
      ((t.upload_np a).upload_np b).reallocCount = (t.upload_np a).reallocCount + 1 ∧
      ((t.upload_np a).upload_np b).allocH = b.dims.getD 0 0 ∧
      ((t.upload_np a).upload_np b).allocW = b.dims.getD 1 0) := by
  obtain ⟨ha0, ha1⟩ := upload_np_shape t a
  constructor
  · rintro ⟨he0, he1⟩
    exact upload_np_count_of_eq _ b (by rw [ha0, he0]) (by rw [ha1, he1])
  · intro hne
    refine upload_np_count_of_ne _ b ?_
    rw [ha0, ha1]
    exact hne

/-- Witness for C6: same-shape re-upload keeps the reallocation count, a
different-height upload bumps it once and records the new size. -/
theorem upload_np_realloc_policy_witness :
    (npImgB.dims.getD 0 0 = npImgA.dims.getD 0 0 ∧
     npImgB.dims.getD 1 0 = npImgA.dims.getD 1 0) ∧
    ((Texture.init.upload_np npImgA).upload_np npImgB).reallocCount =
      (Texture.init.upload_np npImgA).reallocCount ∧
    ¬ (npImgC.dims.getD 0 0 = npImgA.dims.getD 0 0 ∧
       npImgC.dims.getD 1 0 = npImgA.dims.getD 1 0) ∧
    (((Texture.init.upload_np npImgA).upload_np npImgC).reallocCount =
      (Texture.init.upload_np npImgA).reallocCount + 1 ∧
     ((Texture.init.upload_np npImgA).upload_np npImgC).allocH = npImgC.dims.getD 0 0 ∧
     ((Texture.init.upload_np npImgA).upload_np npImgC).allocW = npImgC.dims.getD 1 0) :=
  ⟨by decide,
   (upload_np_realloc_policy Texture.init npImgA npImgB).1 (by decide),
   by decide,
   (upload_np_realloc_policy Texture.init npImgA npImgC).2 (by decide)⟩

/-- Witness for the amended C8 at the concrete dead state. -/
theorem dead_viewer_calls_witness :
    deadState.processAlive = false ∧
    (SIV.draw deadState (some imgA) none false = (deadState, none) ∧
     SIV.restart deadState =
       ({ deadState with started := false, processAlive := true,
                         processGeneration := deadState.processGeneration + 1 }, none) ∧
     SIV.close deadState =
       ({ deadState with shouldQuit := true, processAlive := false }, none) ∧
     SIV.hide deadState = ({ deadState with hidden := true }, none) ∧
     SIV.show' deadState = ({ deadState with hidden := false }, none)) :=
  ⟨rfl, dead_viewer_calls deadState (some imgA) none false rfl⟩

/-! ### Decimal numeral round trips for the ini file -/

theorem natDigitsRev_lt (n : Nat) : ∀ d ∈ natDigitsRev n, d < 10 := by
  induction n using Nat.strong_induction_on with
  | _ n ih =>
    match n with
    | 0 => simp [natDigitsRev]
    | m + 1 =>
      rw [natDigitsRev]
      intro d hd
      rcases List.mem_cons.mp hd with rfl | hd'
      · exact Nat.mod_lt _ (by norm_num)
      · exact ih ((m + 1) / 10) (Nat.div_lt_self (Nat.succ_pos m) (by norm_num)) d hd'

theorem natDigitsRev_ne_nil (n : Nat) (h : n ≠ 0) : natDigitsRev n ≠ [] := by
  match n, h with
  | m + 1, _ =>
    rw [natDigitsRev]
    simp

theorem mem_charsOfNat (n : Nat) :
    ∀ c ∈ charsOfNat n, ∃ d, d < 10 ∧ c = digitCh d := by
  unfold charsOfNat
  split
  · intro c hc
    rcases List.mem_singleton.mp hc with rfl
    exact ⟨0, by norm_num, by decide⟩
  · intro c hc
    rcases List.mem_map.mp hc with ⟨d, hd, rfl⟩
    exact ⟨d, natDigitsRev_lt n d (List.mem_reverse.mp hd), rfl⟩

theorem digitCh_toNat (d : Nat) (h : d < 10) : (digitCh d).toNat = 48 + d := by
  interval_cases d <;> decide

theorem isDigitCh_digitCh (d : Nat) (h : d < 10) : isDigitCh (digitCh d) = true := by
  interval_cases d <;> decide

theorem digitCh_not_space (d : Nat) (h : d < 10) : isSpaceCh (digitCh d) = false := by
  interval_cases d <;> decide

theorem digitCh_ne_minus (d : Nat) (h : d < 10) : digitCh d ≠ '-' := by
  interval_cases d <;> decide

theorem digitCh_ne_dot (d : Nat) (h : d < 10) : digitCh d ≠ '.' := by
  interval_cases d <;> decide

theorem charsOfNat_ne_nil (n : Nat) : charsOfNat n ≠ [] := by
  unfold charsOfNat
  split
  · simp
  · next h =>
    simp only [ne_eq, List.map_eq_nil_iff, List.reverse_eq_nil_iff]
    exact natDigitsRev_ne_nil n h

theorem charsOfNat_digits (n : Nat) : (charsOfNat n).all isDigitCh = true := by
  rw [List.all_eq_true]
  intro c hc
  obtain ⟨d, hd, rfl⟩ := mem_charsOfNat n c hc
  exact isDigitCh_digitCh d hd

theorem charsOfNat_no_space (n : Nat) : ∀ c ∈ charsOfNat n, isSpaceCh c = false := by
  intro c hc
  obtain ⟨d, hd, rfl⟩ := mem_charsOfNat n c hc
  exact digitCh_not_space d hd

theorem charsOfNat_no_dot (n : Nat) : ∀ c ∈ charsOfNat n, c ≠ '.' := by
  intro c hc
  obtain ⟨d, hd, rfl⟩ := mem_charsOfNat n c hc
  exact digitCh_ne_dot d hd

theorem foldl_digits_val (n : Nat) :
    ((natDigitsRev n).reverse).foldl (fun a d => a * 10 + d) 0 = n := by
  induction n using Nat.strong_induction_on with
  | _ n ih =>
    match n with
    | 0 => simp [natDigitsRev]
    | m + 1 =>
      rw [natDigitsRev, List.reverse_cons, List.foldl_append,
        ih ((m + 1) / 10) (Nat.div_lt_self (Nat.succ_pos m) (by norm_num))]
      simp only [List.foldl_cons, List.foldl_nil]
      omega

theorem foldl_digitCh (ds : List Nat) (acc : Nat) (h : ∀ d ∈ ds, d < 10) :
    (ds.map digitCh).foldl (fun a c => a * 10 + (c.toNat - 48)) acc =
      ds.foldl (fun a d => a * 10 + d) acc := by
  induction ds generalizing acc with
  | nil => rfl
  | cons d ds ih =>
    simp only [List.map_cons, List.foldl_cons]
    rw [digitCh_toNat d (h d (List.mem_cons_self _ _))]
    rw [show 48 + d - 48 = d by omega]
    exact ih _ (fun x hx => h x (List.mem_cons_of_mem _ hx))

theorem parseNatCh_charsOfNat (n : Nat) : parseNatCh (charsOfNat n) = some n := by
  unfold parseNatCh
  rw [if_pos ⟨charsOfNat_ne_nil n, charsOfNat_digits n⟩]
  congr 1
  unfold charsOfNat
  split
  · next h => rw [h]; rfl
  · rw [foldl_digitCh _ _ (fun d hd => natDigitsRev_lt n d (List.mem_reverse.mp hd))]
    exact foldl_digits_val n

theorem charsOfNat_getD_ne_minus (n : Nat) : (charsOfNat n).getD 0 ' ' ≠ '-' := by
  cases h : charsOfNat n with
  | nil => exact absurd h (charsOfNat_ne_nil n)
  | cons c cs =>
    obtain ⟨d, hd, rfl⟩ := mem_charsOfNat n c (h ▸ List.mem_cons_self _ _)
    exact digitCh_ne_minus d hd

theorem parseIntCh_charsOfInt (i : Int) : parseIntCh (charsOfInt i) = some i := by
  unfold charsOfInt parseIntCh
  by_cases h : i < 0
  · rw [if_pos h]
    rw [if_pos (by rfl)]
    simp only [List.drop_succ_cons, List.drop_zero]
    rw [parseNatCh_charsOfNat]
    show some (-(i.natAbs : Int)) = some i
    congr 1
    omega
  · rw [if_neg h]
    rw [if_neg (charsOfNat_getD_ne_minus _)]
    rw [parseNatCh_charsOfNat]
    show some ((i.natAbs : Int)) = some i
    congr 1
    omega

theorem charsOfInt_ne_nil (i : Int) : charsOfInt i ≠ [] := by
  unfold charsOfInt
  split
  · simp
  · exact charsOfNat_ne_nil _

theorem charsOfInt_no_space (i : Int) : ∀ c ∈ charsOfInt i, isSpaceCh c = false := by
  unfold charsOfInt
  split
  · intro c hc
    rcases List.mem_cons.mp hc with rfl | hc'
    · decide
    · exact charsOfNat_no_space _ c hc'
  · exact charsOfNat_no_space _

/-! ### `str.split()` and `str.rstrip()` on writer output -/

theorem splitWSAux_nonspace (u : List Char) (rest acc : List Char)
    (h : ∀ c ∈ u, isSpaceCh c = false) :
    splitWSAux (u ++ rest) acc = splitWSAux rest (u.reverse ++ acc) := by
  induction u generalizing acc with
  | nil => simp
  | cons c u ih =>
    have hc : isSpaceCh c = false := h c (List.mem_cons_self _ _)
    simp only [List.cons_append, splitWSAux, hc, Bool.false_eq_true, if_false,
      List.append_eq]
    rw [ih _ (fun x hx => h x (List.mem_cons_of_mem _ hx))]
    simp

theorem splitWSAux_nil_of_ne (v : List Char) (hv : v ≠ []) :
    splitWSAux [] v.reverse = [v] := by
  simp only [splitWSAux]
  rw [if_neg (by simp [hv])]
  simp

theorem splitWS_pair (u v : List Char) (hu : u ≠ []) (hv : v ≠ [])
    (hun : ∀ c ∈ u, isSpaceCh c = false) (hvn : ∀ c ∈ v, isSpaceCh c = false) :
    splitWS (u ++ ' ' :: v) = [u, v] := by
  unfold splitWS
  rw [splitWSAux_nonspace u (' ' :: v) [] hun]
  simp only [List.append_nil]
  simp only [splitWSAux]
  rw [if_pos (by decide), if_neg (by simp [hu])]
  have h2 : splitWSAux v [] = [v] := by
    have := splitWSAux_nonspace v [] [] hvn
    simp only [List.append_nil] at this
    rw [this]
    exact splitWSAux_nil_of_ne v hv
  rw [h2]
  simp

theorem rstripCh_append_nonspace (xs : List Char) (c : Char)
    (h : isSpaceCh c = false) : rstripCh (xs ++ [c]) = xs ++ [c] := by
  unfold rstripCh
  rw [List.reverse_append]
  simp only [List.reverse_cons, List.reverse_nil, List.nil_append,
    List.singleton_append]
  rw [List.dropWhile_cons, h]
  simp

theorem charsOfNat_eq_append (n : Nat) :
    ∃ xs d, charsOfNat n = xs ++ [digitCh d] ∧ d < 10 := by
  unfold charsOfNat
  split
  · exact ⟨[], 0, by decide, by norm_num⟩
  · next h =>
    match n, h with
    | m + 1, _ =>
      refine ⟨((natDigitsRev ((m + 1) / 10)).reverse).map digitCh, (m + 1) % 10, ?_, ?_⟩
      · rw [natDigitsRev]
        simp [List.reverse_cons]
      · exact Nat.mod_lt _ (by norm_num)

theorem rstripCh_charsOfNat (n : Nat) : rstripCh (charsOfNat n) = charsOfNat n := by
  obtain ⟨xs, d, heq, hd⟩ := charsOfNat_eq_append n
  rw [heq, rstripCh_append_nonspace _ _ (digitCh_not_space d hd)]

theorem rstripCh_charsOfInt (i : Int) : rstripCh (charsOfInt i) = charsOfInt i := by
  unfold charsOfInt
  split
  · obtain ⟨xs, d, heq, hd⟩ := charsOfNat_eq_append i.natAbs
    rw [heq, show '-' :: (xs ++ [digitCh d]) = ('-' :: xs) ++ [digitCh d] from rfl,
      rstripCh_append_nonspace _ _ (digitCh_not_space d hd)]
  · exact rstripCh_charsOfNat _

/-! ### `str.split(sep)` on writer output -/

theorem splitChAux_no_sep (sep : Char) (u : List Char) (rest acc : List Char)
    (h : ∀ c ∈ u, c ≠ sep) :
    splitChAux sep (u ++ rest) acc = splitChAux sep rest (u.reverse ++ acc) := by
  induction u generalizing acc with
  | nil => simp
  | cons c u ih =>
    have hc : c ≠ sep := h c (List.mem_cons_self _ _)
    simp only [List.cons_append, splitChAux, List.append_eq]
    rw [if_neg hc]
    rw [ih _ (fun x hx => h x (List.mem_cons_of_mem _ hx))]
    simp

theorem splitCh_pair (sep : Char) (u v : List Char)
    (hu : ∀ c ∈ u, c ≠ sep) (hv : ∀ c ∈ v, c ≠ sep) :
    splitCh sep (u ++ sep :: v) = [u, v] := by
  unfold splitCh
  rw [splitChAux_no_sep sep u (sep :: v) [] hu]
  simp only [List.append_nil]
  simp only [splitChAux]
  rw [if_true]
  have h2 : splitChAux sep v [] = [v] := by
    have := splitChAux_no_sep sep v [] [] hv
    simp only [List.append_nil] at this
    rw [this]
    simp [splitChAux]
  rw [h2]
  simp

/-! ### Float printing and parsing round trip -/

theorem foldl_zeros (j : Nat) :
    (List.replicate j '0').foldl (fun a c => a * 10 + (c.toNat - 48)) 0 = 0 := by
  induction j with
  | zero => rfl
  | succ m ih =>
    rw [List.replicate_succ, List.foldl_cons]
    simpa using ih

theorem parseNatCh_padZeros (cs : List Char) (k : Nat) (hne : cs ≠ [])
    (hdig : cs.all isDigitCh = true) :
    parseNatCh (padZeros cs k) = parseNatCh cs := by
  have hpadne : List.replicate (k - cs.length) '0' ++ cs ≠ [] := by
    simp [hne]
  have hpaddig : (List.replicate (k - cs.length) '0' ++ cs).all isDigitCh = true := by
    rw [List.all_append]
    simp only [Bool.and_eq_true]
    refine ⟨?_, hdig⟩
    rw [List.all_eq_true]
    intro c hc
    rcases List.mem_replicate.mp hc with ⟨-, rfl⟩
    decide
  unfold padZeros parseNatCh
  rw [if_pos ⟨hpadne, hpaddig⟩, if_pos ⟨hne, hdig⟩]
  congr 1
  rw [List.foldl_append, foldl_zeros]

theorem natDigitsRev_length_le (n : Nat) :
    ∀ k, n < 10 ^ k → (natDigitsRev n).length ≤ k := by
  induction n using Nat.strong_induction_on with
  | _ n ih =>
    match n with
    | 0 =>
      intro k _
      simp [natDigitsRev]
    | m + 1 =>
      intro k hk
      cases k with
      | zero =>
        rw [pow_zero] at hk
        omega
      | succ j =>
        rw [natDigitsRev]
        simp only [List.length_cons]
        have hdiv : (m + 1) / 10 < 10 ^ j := by
          rw [pow_succ] at hk
          omega
        have := ih ((m + 1) / 10) (Nat.div_lt_self (Nat.succ_pos m) (by norm_num)) j hdiv
        omega

theorem charsOfNat_length_le (n k : Nat) (hk : 1 ≤ k) (h : n < 10 ^ k) :
    (charsOfNat n).length ≤ k := by
  unfold charsOfNat
  split
  · simpa using hk
  · rw [List.length_map, List.length_reverse]
    exact natDigitsRev_length_le n k h

theorem padZeros_length (cs : List Char) (k : Nat) (h : cs.length ≤ k) :
    (padZeros cs k).length = k := by
  unfold padZeros
  rw [List.length_append, List.length_replicate]
  omega

theorem padZeros_no_dot (cs : List Char) (k : Nat) (h : ∀ c ∈ cs, c ≠ '.') :
    ∀ c ∈ padZeros cs k, c ≠ '.' := by
  intro c hc
  unfold padZeros at hc
  rcases List.mem_append.mp hc with hc' | hc'
  · rcases List.mem_replicate.mp hc' with ⟨-, rfl⟩
    decide
  · exact h c hc'

theorem decExp_den (q : ℚ) (h : ∃ k, k < 400 ∧ (q * (10 : ℚ) ^ k).den = 1) :
    (q * (10 : ℚ) ^ decExp q).den = 1 := by
  obtain ⟨k, hk, hden⟩ := h
  have hsome : ((List.range 400).find? (fun j => (q * (10 : ℚ) ^ j).den = 1)).isSome := by
    rw [List.find?_isSome]
    exact ⟨k, List.mem_range.mpr hk, by simp [hden]⟩
  obtain ⟨r, hr⟩ := Option.isSome_iff_exists.mp hsome
  have hp := List.find?_some hr
  unfold decExp
  rw [hr]
  simp only [Option.getD_some]
  exact of_decide_eq_true hp

theorem den_one_mul_pow (q : ℚ) (k j : Nat) (h : (q * (10 : ℚ) ^ k).den = 1) :
    (q * (10 : ℚ) ^ (k + j)).den = 1 := by
  have hint : ((q * 10 ^ k).num : ℚ) = q * 10 ^ k := (Rat.den_eq_one_iff _).mp h
  have heq : q * (10 : ℚ) ^ (k + j) = (((q * 10 ^ k).num * (10 : ℤ) ^ j : ℤ) : ℚ) := by
    push_cast
    rw [hint, pow_add]
    ring
  rw [heq]
  exact Rat.den_intCast _

theorem parseIntCh_charsOfNat (m : Nat) :
    parseIntCh (charsOfNat m) = some (m : Int) := by
  unfold parseIntCh
  rw [if_neg (charsOfNat_getD_ne_minus m), parseNatCh_charsOfNat]
  rfl

theorem parseFloatCh_parts (A B : List Char) (ia : Int) (fb : Nat)
    (hAparse : parseIntCh A = some ia)
    (hBparse : parseNatCh B = some fb)
    (hAnominus : A.getD 0 ' ' ≠ '-')
    (hAnodot : ∀ c ∈ A, c ≠ '.') (hBnodot : ∀ c ∈ B, c ≠ '.') :
    parseFloatCh (A ++ '.' :: B) =
      some ((ia : ℚ) + (fb : ℚ) / (10 : ℚ) ^ B.length) := by
  unfold parseFloatCh
  rw [splitCh_pair '.' A B hAnodot hBnodot]
  simp only [hAparse, hBparse, Option.some_bind, Option.bind_eq_bind]
  rw [if_neg hAnominus]
  rfl

/-- A nonnegative finite-decimal rational survives the print/parse round
trip of the scale line. -/
theorem parseFloatCh_floatChars (q : ℚ) (hq : 0 ≤ q)
    (hex : ∃ j, j < 400 ∧ (q * (10 : ℚ) ^ j).den = 1) :
    parseFloatCh (floatChars q) = some q := by
  have hkden := decExp_den q hex
  have hfloat0 : floatChars q =
      (if q < 0 then ['-'] else []) ++
      charsOfNat ((q * (10 : ℚ) ^ max (decExp q) 1).num.natAbs / 10 ^ max (decExp q) 1) ++
      '.' :: padZeros
        (charsOfNat ((q * (10 : ℚ) ^ max (decExp q) 1).num.natAbs % 10 ^ max (decExp q) 1))
        (max (decExp q) 1) := rfl
  rw [if_neg (not_lt.mpr hq), List.nil_append] at hfloat0
  set k := max (decExp q) 1 with hkdef
  have hkge : 1 ≤ k := le_max_right _ _
  have hden : (q * (10 : ℚ) ^ k).den = 1 := by
    have hle : decExp q ≤ k := le_max_left _ _
    have hsplit : k = decExp q + (k - decExp q) := by omega
    rw [hsplit]
    exact den_one_mul_pow q _ _ hkden
  set n := (q * (10 : ℚ) ^ k).num.natAbs with hndef
  have hpow_pos : (0 : ℚ) < 10 ^ k := by positivity
  have hnum_nonneg : 0 ≤ (q * (10 : ℚ) ^ k).num :=
    Rat.num_nonneg.mpr (mul_nonneg hq (le_of_lt hpow_pos))
  have hnQ : (n : ℚ) = q * 10 ^ k := by
    have h1 : ((n : ℤ) : ℚ) = q * 10 ^ k := by
      rw [hndef, Int.natAbs_of_nonneg hnum_nonneg]
      exact (Rat.den_eq_one_iff _).mp hden
    exact_mod_cast h1
  have hmodlt : n % 10 ^ k < 10 ^ k := Nat.mod_lt n (Nat.pos_pow_of_pos k (by norm_num))
  have hblen : (padZeros (charsOfNat (n % 10 ^ k)) k).length = k :=
    padZeros_length _ k (charsOfNat_length_le _ k hkge hmodlt)
  rw [hfloat0,
    parseFloatCh_parts _ _ ((n / 10 ^ k : Nat) : Int) (n % 10 ^ k)
      (parseIntCh_charsOfNat _)
      (by rw [parseNatCh_padZeros _ _ (charsOfNat_ne_nil _) (charsOfNat_digits _)]
          exact parseNatCh_charsOfNat _)
      (charsOfNat_getD_ne_minus _)
      (charsOfNat_no_dot _)
      (padZeros_no_dot _ _ (charsOfNat_no_dot _)),
    hblen]
  have hdm : 10 ^ k * (n / 10 ^ k) + n % 10 ^ k = n := Nat.div_add_mod n (10 ^ k)
  obtain ⟨D, hD⟩ : ∃ D, n / 10 ^ k = D := ⟨_, rfl⟩
  obtain ⟨M, hM⟩ : ∃ M, n % 10 ^ k = M := ⟨_, rfl⟩
  rw [hD, hM] at hdm ⊢
  congr 1
  have h10 : ((10 : ℚ) ^ k) ≠ 0 := ne_of_gt hpow_pos
  field_simp
  rw [← hnQ]
  conv_rhs => rw [← hdm]
  push_cast
  ring

theorem padZeros_ends (cs : List Char) (k : Nat) (xs : List Char) (c : Char)
    (h : cs = xs ++ [c]) : ∃ ys, padZeros cs k = ys ++ [c] := by
  subst h
  unfold padZeros
  exact ⟨_, by rw [List.append_assoc]⟩

theorem floatChars_ends_digit (q : ℚ) :
    ∃ xs d, floatChars q = xs ++ [digitCh d] ∧ d < 10 := by
  obtain ⟨ys, d, hys, hd⟩ :=
    charsOfNat_eq_append
      ((q * (10 : ℚ) ^ max (decExp q) 1).num.natAbs % 10 ^ max (decExp q) 1)
  obtain ⟨zs, hzs⟩ := padZeros_ends _ (max (decExp q) 1) _ _ hys
  refine ⟨(if q < 0 then ['-'] else []) ++
    charsOfNat ((q * (10 : ℚ) ^ max (decExp q) 1).num.natAbs / 10 ^ max (decExp q) 1) ++
    '.' :: zs, d, ?_, hd⟩
  have h0 : floatChars q =
      (if q < 0 then ['-'] else []) ++
      charsOfNat ((q * (10 : ℚ) ^ max (decExp q) 1).num.natAbs / 10 ^ max (decExp q) 1) ++
      '.' :: padZeros
        (charsOfNat ((q * (10 : ℚ) ^ max (decExp q) 1).num.natAbs % 10 ^ max (decExp q) 1))
        (max (decExp q) 1) := rfl
  rw [h0, hzs]
  simp [List.append_assoc, List.cons_append]

theorem rstripCh_floatChars (q : ℚ) : rstripCh (floatChars q) = floatChars q := by
  obtain ⟨xs, d, heq, hd⟩ := floatChars_ends_digit q
  rw [heq, rstripCh_append_nonspace _ _ (digitCh_not_space d hd)]

/-! ### The ini file round trip -/

theorem parseIniLines_writeIni (s : IniSettings) (hpos : s.windowPos.length = 2)
    (hscale : 0 ≤ s.uiScale)
    (hk : ∃ j, j < 400 ∧ (s.uiScale * (10 : ℚ) ^ j).den = 1) :
    parseIniLines (writeIni s []) = some (s, []) := by
  obtain ⟨px, py, hxy⟩ := List.length_eq_two.mp hpos
  have hline0 : readLine (writeIni s []) 0 =
      charsOfInt s.width ++ ' ' :: charsOfInt s.height := rfl
  have hline1 : readLine (writeIni s []) 1 =
      charsOfInt (s.windowPos.getD 0 0) ++ ' ' :: charsOfInt (s.windowPos.getD 1 0) := rfl
  have hline2 : readLine (writeIni s []) 2 = charsOfInt s.startMaximized := rfl
  have hline3 : readLine (writeIni s []) 3 = floatChars s.uiScale := rfl
  have hline4 : readLine (writeIni s []) 4 =
      charsOfInt (if s.fullscreen then 1 else 0) := rfl
  have hwh : (splitWS (readLine (writeIni s []) 0)).mapM parseIntCh =
      some [s.width, s.height] := by
    rw [hline0, splitWS_pair _ _ (charsOfInt_ne_nil _) (charsOfInt_ne_nil _)
      (charsOfInt_no_space _) (charsOfInt_no_space _)]
    simp [List.mapM, List.mapM.loop, parseIntCh_charsOfInt]
  have hposparse : (splitWS (readLine (writeIni s []) 1)).mapM parseIntCh =
      some [px, py] := by
    rw [hline1, hxy]
    show (splitWS (charsOfInt px ++ ' ' :: charsOfInt py)).mapM parseIntCh = some [px, py]
    rw [splitWS_pair _ _ (charsOfInt_ne_nil _) (charsOfInt_ne_nil _)
      (charsOfInt_no_space _) (charsOfInt_no_space _)]
    simp [List.mapM, List.mapM.loop, parseIntCh_charsOfInt]
  have hmaxi : parseIntCh (rstripCh (readLine (writeIni s []) 2)) =
      some s.startMaximized := by
    rw [hline2, rstripCh_charsOfInt, parseIntCh_charsOfInt]
  have hscaleparse : parseFloatCh (rstripCh (readLine (writeIni s []) 3)) =
      some s.uiScale := by
    rw [hline3, rstripCh_floatChars]
    exact parseFloatCh_floatChars _ hscale hk
  have hfsparse : parseIntCh (rstripCh (readLine (writeIni s []) 4)) =
      some (if s.fullscreen then 1 else 0) := by
    rw [hline4, rstripCh_charsOfInt, parseIntCh_charsOfInt]
  have heds : parseEditablesAux ((writeIni s []).length + 1) (writeIni s []) 5 =
      some [] := rfl
  have hfsval : (((if s.fullscreen then (1 : Int) else 0) != 0)) = s.fullscreen := by
    cases s.fullscreen <;> rfl
  unfold parseIniLines
  rw [hwh]
  simp only [Option.bind_eq_bind, Option.some_bind]
  rw [hposparse]
  simp only [Option.some_bind]
  rw [hmaxi]
  simp only [Option.some_bind]
  rw [hscaleparse]
  simp only [Option.some_bind]
  rw [hfsparse]
  simp only [Option.some_bind]
  rw [heds]
  simp only [Option.some_bind]
  rw [hfsval, ← hxy]
  rfl

/-- C9: the settings record written on clean shutdown (width/height line,
position line, maximized, UI scale, fullscreen — in that order) is
recovered unchanged by the startup read path, and a missing or malformed
settings file falls back to 1280x720 at (50, 50), scale 1.0, not
fullscreen. -/
theorem ini_roundtrip_and_defaults (s : IniSettings) (hpos : s.windowPos.length = 2)
    (hscale : 0 ≤ s.uiScale)
    (hk : ∃ j, j < 400 ∧ (s.uiScale * (10 : ℚ) ^ j).den = 1) :
    readIniSettings (some (writeIni s [])) = s ∧
    readIniSettings none = defaultSettings ∧
    readIniSettings (some ["garbage"]) = defaultSettings := by
  refine ⟨?_, rfl, by decide⟩
  simp only [readIniSettings]
  rw [parseIniLines_writeIni s hpos hscale hk]

/-- Witness for C9 at a concrete settings record. -/
theorem ini_roundtrip_and_defaults_witness :
    iniSample.windowPos.length = 2 ∧
    0 ≤ iniSample.uiScale ∧
    (∃ j, j < 400 ∧ (iniSample.uiScale * (10 : ℚ) ^ j).den = 1) ∧
    (readIniSettings (some (writeIni iniSample [])) = iniSample ∧
     readIniSettings none = defaultSettings ∧
     readIniSettings (some ["garbage"]) = defaultSettings) :=
  ⟨rfl, by norm_num [iniSample], ⟨0, by norm_num, by norm_num [iniSample]⟩,
   ini_roundtrip_and_defaults iniSample rfl (by norm_num [iniSample])
     ⟨0, by norm_num, by norm_num [iniSample]⟩⟩

end PyViewer
